import Mathlib

/-!
# Verification of the `bump` version-bumping tool

`bump` is a small command-line program (main.go) that resolves the highest
semantic-version tag of a git repository, computes the next version, rewrites
the `.version` files of the working tree, commits, and tags.

This file shallowly embeds the program's logic:

* pure string processing (`strings.Split`, `fmt.Sscanf("v%d.%d.%d")`,
  `fmt.Sprintf("v%d.%d.%d")`) is modelled over `List Char`, with Go's 64-bit
  `int` represented as `Int` together with an explicit two's-complement wrap;
* the external semantic-version library (`golang.org/x/mod/semver`) is
  modelled by a structural parser and comparator implementing the same
  precedence rules;
* the repository mutations (walk, write, stage, commit, tag) are modelled as
  functions on an abstract `RepoState`.

Theorems about these definitions settle the specification's claims.
-/

deriving instance DecidableEq for Except

namespace Bump

/-! ## Decimal digits and integer formatting -/

/-- One-character decimal digit: `digitChar d` is the ASCII digit for
`d < 10` (used to model Go's `%d` formatting). -/
def digitChar : Nat → Char
  | 0 => '0'
  | 1 => '1'
  | 2 => '2'
  | 3 => '3'
  | 4 => '4'
  | 5 => '5'
  | 6 => '6'
  | 7 => '7'
  | 8 => '8'
  | _ => '9'

/-- Decimal value accumulated left-to-right over a digit run, starting from
`a` (the accumulator of integer scanning). -/
def valDFrom (a : Nat) (ds : List Char) : Nat :=
  ds.foldl (fun x c => 10 * x + (c.toNat - 48)) a

/-- Fuel-driven digit expansion of a natural number, most significant digit
first; the fuel is an upper bound on the number, so it never runs out. -/
def natDigitsAux : Nat → Nat → List Char → List Char
  | 0, _, acc => acc
  | fuel + 1, n, acc =>
    if n < 10 then digitChar n :: acc
    else natDigitsAux fuel (n / 10) (digitChar (n % 10) :: acc)

/-- The decimal digit string of `n` (Go `%d` formatting of a non-negative
value). -/
def natDigits (n : Nat) : List Char := natDigitsAux (n + 1) n []

def natRepr (n : Nat) : String := String.mk (natDigits n)

/-- Models Go `%d` formatting of a (possibly negative) 64-bit integer. -/
def intRepr (i : Int) : String :=
  if i < 0 then "-" ++ natRepr i.natAbs else natRepr i.toNat

/-! ## Splitting -/

/-- Splits a character list at every occurrence of `sep`: models Go
`strings.Split` with a one-character separator, and path splitting on `/`. -/
def splitOnChar (sep : Char) : List Char → List (List Char)
  | [] => [[]]
  | c :: cs =>
    if c = sep then [] :: splitOnChar sep cs
    else
      match splitOnChar sep cs with
      | [] => [[c]]
      | g :: gs => (c :: g) :: gs

/-! ## Scanning (`fmt.Sscanf`) -/

/-- Blank characters skipped by Go `fmt` scanning before a numeric verb. -/
def isBlankChar (c : Char) : Bool := c == ' ' || c == '\t'

def skipBlanks : List Char → List Char
  | [] => []
  | c :: cs => if isBlankChar c then skipBlanks cs else c :: cs

/-- Consume a maximal run of decimal digits, accumulating their value. -/
def scanDigits : List Char → Nat → Nat × List Char
  | [], a => (a, [])
  | c :: cs, a =>
    if c.isDigit then scanDigits cs (10 * a + (c.toNat - 48)) else (a, c :: cs)

def int64Max : Int := 9223372036854775807

def int64Min : Int := -9223372036854775808

def int64MaxN : Nat := 9223372036854775807

/-- Two's-complement wrap-around of Go's 64-bit `int` arithmetic. -/
def wrap64 (i : Int) : Int :=
  (i + 9223372036854775808) % 18446744073709551616 - 9223372036854775808

/-- A non-empty digit run read greedily, or `none`. -/
def scanUnsigned (cs : List Char) : Option (Nat × List Char) :=
  match cs with
  | c :: _ => if c.isDigit then some (scanDigits cs 0) else none
  | [] => none

/-- Models scanning one integer with Go `fmt`'s `%d` verb into an `int`:
leading blanks are skipped, an optional sign and then a non-empty digit run
are read (the run ends at the first non-digit), and values outside the 64-bit
range are rejected (Go's `strconv.ParseInt` range error). -/
def scanInt (cs : List Char) : Option (Int × List Char) :=
  match skipBlanks cs with
  | [] => none
  | c :: rest =>
    if c = '-' then do
      let (v, r) ← scanUnsigned rest
      if int64Min ≤ -(v : Int) then some (-(v : Int), r) else none
    else if c = '+' then do
      let (v, r) ← scanUnsigned rest
      if (v : Int) ≤ int64Max then some ((v : Int), r) else none
    else do
      let (v, r) ← scanUnsigned (c :: rest)
      if (v : Int) ≤ int64Max then some ((v : Int), r) else none

/-- A literal character of a scan/parse format: consumed exactly, with no
blank skipping. -/
def expectChar (c : Char) : List Char → Option (List Char)
  | [] => none
  | d :: rest => if d = c then some rest else none

/-- Models `fmt.Sscanf(s, "v%d.%d.%d", &major, &minor, &patch)`: the literal
`v` and the two literal dots must match exactly, each `%d` scans an integer as
in `scanInt`, and input remaining after the third integer is ignored (Go's
`Sscanf` does not require the input to be fully consumed). -/
def scanVddd (cs : List Char) : Option (Int × Int × Int) := do
  let r0 ← expectChar 'v' cs
  let (x, r1) ← scanInt r0
  let r2 ← expectChar '.' r1
  let (y, r3) ← scanInt r2
  let r4 ← expectChar '.' r3
  let (z, _) ← scanInt r4
  some (x, y, z)

/-! ## The semantic-version library (`golang.org/x/mod/semver`)

The program delegates tag validation and ordering to `golang.org/x/mod/semver`.
The definitions below model that library: the same grammar (leading `v`,
`MAJOR[.MINOR[.PATCH]]` with no leading zeros, optional prerelease and build
sections) and the same precedence (numeric components by value, a release
above its prereleases, numeric identifiers by value before alphanumeric ones
by string order). -/

/-- A prerelease identifier, classified for precedence: numeric identifiers
(all digits) compare by value and order before alphanumeric ones, which
compare as strings. -/
inductive PreId where
  | num : Nat → PreId
  | str : List Char → PreId
deriving DecidableEq

/-- Identifier characters allowed in prerelease/build identifiers: ASCII
letters, digits and hyphen. -/
def identChar (c : Char) : Bool := c.isDigit || c.isAlpha || c == '-'

/-- A numeric identifier with a leading zero is invalid (`isBadNum`). -/
def badNum (cs : List Char) : Bool :=
  cs.all (·.isDigit) && decide (1 < cs.length) && cs.head? == some '0'

def validPreId (cs : List Char) : Bool :=
  !cs.isEmpty && cs.all identChar && !badNum cs

def classifyId (cs : List Char) : PreId :=
  if cs.all (·.isDigit) then .num (valDFrom 0 cs) else .str cs

def validBuildId (cs : List Char) : Bool := !cs.isEmpty && cs.all identChar

/-- Parse one numeric component: a non-empty digit run with no leading zero
(`parseInt`), returned as its value with the unconsumed rest. -/
def parseNum : List Char → Option (Nat × List Char)
  | [] => none
  | c :: cs =>
    if c.isDigit then
      if c = '0' ∧ (cs.takeWhile (·.isDigit)).isEmpty = false then none
      else some (valDFrom 0 (c :: cs.takeWhile (·.isDigit)), cs.dropWhile (·.isDigit))
    else none

/-- A parsed semantic version: the three numeric components and the prerelease
identifiers (`[]` means a release, which orders above every prerelease).
Build metadata is validated during parsing but carries no precedence. -/
structure SemVer where
  major : Nat
  minor : Nat
  patch : Nat
  pre : List PreId
deriving DecidableEq

/-- Parse the prerelease section `-id.id...` (stopping at a `+`), validating
every identifier (`parsePrerelease`); without a leading `-` nothing is
consumed. -/
def parsePre (cs : List Char) : Option (List PreId × List Char) :=
  match cs with
  | [] => some ([], [])
  | c :: body =>
    if c = '-' then
      let pre := body.takeWhile (fun d => d != '+')
      let rest := body.dropWhile (fun d => d != '+')
      let ids := splitOnChar '.' pre
      if ids.all validPreId then some (ids.map classifyId, rest) else none
    else some ([], c :: body)

/-- Parse the build section `+id.id...`, which must run to the end of the
string (`parseBuild`); an empty rest is accepted, anything else rejected. -/
def parseBuild (cs : List Char) : Option Unit :=
  match cs with
  | [] => some ()
  | c :: body =>
    if c = '+' then
      if (splitOnChar '.' body).all validBuildId then some () else none
    else none

/-- Parses a semantic-version string, mirroring `parse`: a leading `v`, then
`MAJOR[.MINOR[.PATCH]]` (missing components default to 0; the short forms take
no prerelease/build), then optional prerelease and build sections, with
nothing left over. -/
def semverParseChars (cs : List Char) : Option SemVer := do
  let r0 ← expectChar 'v' cs
  let (ma, r1) ← parseNum r0
  if r1.isEmpty then some ⟨ma, 0, 0, []⟩
  else do
    let r2 ← expectChar '.' r1
    let (mi, r3) ← parseNum r2
    if r3.isEmpty then some ⟨ma, mi, 0, []⟩
    else do
      let r4 ← expectChar '.' r3
      let (pa, r5) ← parseNum r4
      let (pre, r6) ← parsePre r5
      let _ ← parseBuild r6
      some ⟨ma, mi, pa, pre⟩

def semverParse (s : String) : Option SemVer := semverParseChars s.data

/-- Models `semver.IsValid`. -/
def semverIsValid (s : String) : Bool := (semverParse s).isSome

/-! ### Precedence -/

def natCmp (a b : Nat) : Ordering :=
  if a < b then .lt else if a = b then .eq else .gt

def listCmp (f : α → α → Ordering) : List α → List α → Ordering
  | [], [] => .eq
  | [], _ :: _ => .lt
  | _ :: _, [] => .gt
  | a :: as, b :: bs => (f a b).then (listCmp f as bs)

def charCmp (c d : Char) : Ordering := natCmp c.toNat d.toNat

/-- Precedence of individual prerelease identifiers. -/
def idCmp : PreId → PreId → Ordering
  | .num a, .num b => natCmp a b
  | .num _, .str _ => .lt
  | .str _, .num _ => .gt
  | .str a, .str b => listCmp charCmp a b

/-- Prerelease precedence: a release (`[]`) orders above every prerelease;
prereleases compare identifier lists lexicographically, a proper prefix
ordering first. -/
def preCmp : List PreId → List PreId → Ordering
  | [], [] => .eq
  | [], _ :: _ => .gt
  | _ :: _, [] => .lt
  | a :: as, b :: bs => (idCmp a b).then (listCmp idCmp as bs)

/-- Semantic-version precedence on parsed versions (`Compare`): major, then
minor, then patch, then prerelease. -/
def verCmp (a b : SemVer) : Ordering :=
  (natCmp a.major b.major).then ((natCmp a.minor b.minor).then
    ((natCmp a.patch b.patch).then (preCmp a.pre b.pre)))

/-- Precedence lifted to parse results: a failed parse sorts before any
successful one, and two failed parses compare equal. -/
def optCmp : Option SemVer → Option SemVer → Ordering
  | none, none => .eq
  | none, some _ => .lt
  | some _, none => .gt
  | some x, some y => verCmp x y

/-- Models `semver.Compare` on possibly-invalid strings: an invalid version
sorts before any valid one, and two invalid versions compare equal. -/
def semverCompare (a b : String) : Ordering :=
  optCmp (semverParse a) (semverParse b)

/-- Models `semver.ByVersion.Less`, used by `semver.Sort`: semantic-version
precedence, with ties broken by plain string order. -/
def semverLess (a b : String) : Bool :=
  match semverCompare a b with
  | .lt => true
  | .gt => false
  | .eq => decide (a < b)

/-- The non-strict counterpart of `semverLess`, the relation `semver.Sort`
sorts by. -/
def semverLE (a b : String) : Prop := semverLess b a = false

instance : DecidableRel semverLE := fun _ _ => instDecidableEqBool _ _

/-- Models `semver.Sort`. -/
def semverSort (l : List String) : List String := List.insertionSort semverLE l

/-! ## The program (main.go) -/

/-- The `action` enumeration from main.go. -/
inductive action where
  | noAction
  | incrementPatch
  | incrementMinor
  | incrementMajor
deriving DecidableEq

/-- The `config` structure from main.go. -/
structure config where
  version : String
  action : action
  dryRun : Bool
  forced : Bool
deriving DecidableEq

/-- Models `fmt.Sprintf("v%d.%d.%d", major, minor, patch)`. -/
def sprintfV (a b c : Int) : String :=
  "v" ++ intRepr a ++ "." ++ intRepr b ++ "." ++ intRepr c

/-- `incrementVersion` from main.go: check the string splits into exactly
three dot-separated parts, scan it with `Sscanf("v%d.%d.%d")`, apply the bump
with Go 64-bit `int` arithmetic, and re-format the result. (The parse-failure
message carries the wrapped scanner error in Go; only its fixed part is
modelled.) -/
def incrementVersion (currentVersion : String) (cfg : config) : Except String String :=
  if (splitOnChar '.' currentVersion.data).length ≠ 3 then
    .error ("invalid version format: " ++ currentVersion)
  else
    match scanVddd currentVersion.data with
    | none => .error ("failed to parse current version('" ++ currentVersion ++ "')")
    | some (ma, mi, pa) =>
      match cfg.action with
      | .incrementPatch => .ok (sprintfV ma mi (wrap64 (pa + 1)))
      | .incrementMinor => .ok (sprintfV ma (wrap64 (mi + 1)) 0)
      | .incrementMajor => .ok (sprintfV (wrap64 (ma + 1)) 0 0)
      | .noAction => .error "invalid action: 0"

/-- `lastTag` from main.go, over the short names of the repository's tag
references: keep the syntactically valid semantic versions, fail if none
remain, otherwise sort and take the element at index `length - 1`. -/
def lastTag (tagNames : List String) : Except String String :=
  let tags := tagNames.filter (fun t => semverIsValid t)
  if tags.length = 0 then .error "no version tags found in the repository"
  else
    let sorted := semverSort tags
    .ok (sorted.getD (sorted.length - 1) "")

/-- The values bound by `flagSet.Parse` inside `getConfig`: the seven flags
plus any remaining non-flag arguments. -/
structure parsedFlags where
  version : String
  patch : Bool
  minor : Bool
  major : Bool
  dryRun : Bool
  force : Bool
  help : Bool
  extraArgs : List String
deriving DecidableEq

/-- `getConfig` from main.go, after `flagSet.Parse` has bound the flags: the
help short-circuit, the leftover-argument check, the two mutual-exclusion
checks, the action assignment, and the default to a patch bump. The returned
`Bool` is the `showhelp` result. -/
def getConfig (f : parsedFlags) : Except String (config × Bool) :=
  if f.help then .ok (⟨"", .noAction, false, false⟩, true)
  else if f.extraArgs.length > 0 then .error "unexpected arguments"
  else if f.version != "" && (f.patch || f.minor || f.major) then
    .error "cannot set version and increment flags at the same time"
  else if (f.patch && f.minor) || (f.patch && f.major) || (f.minor && f.major) then
    .error "cannot set more than one increment flag at the same time"
  else
    let act0 := if f.patch then action.incrementPatch else action.noAction
    let act1 := if f.minor then action.incrementMinor else act0
    let act2 := if f.major then action.incrementMajor else act1
    let act3 :=
      if act2 = action.noAction ∧ f.version = "" then action.incrementPatch else act2
    .ok (⟨f.version, act3, f.dryRun, f.force⟩, false)

/-! ## Repository state -/

/-- Abstract state of the git repository and its working tree: `files` is the
working tree in traversal order (`filepath.WalkDir` visits entries in a
deterministic lexical order), `staged` the index entries that differ from
HEAD, `commits` the messages of the commits reachable from HEAD, `tags` the
tag short names, and `headHash` the current HEAD hash. -/
structure RepoState where
  files : List (String × String)
  staged : List (String × String)
  commits : List String
  tags : List String
  headHash : String
deriving DecidableEq

/-- Base name of a slash-separated path (`d.Name()` for a walked entry). -/
def baseName (p : String) : String :=
  String.mk ((splitOnChar '/' p.data).getLastD [])

/-- Models `worktree.Add`: record the path's new content in the index delta. -/
def addToIndex (staged : List (String × String)) (p v : String) :
    List (String × String) :=
  match staged with
  | [] => [(p, v)]
  | (q, c) :: rest => if q = p then (p, v) :: rest else (q, c) :: addToIndex rest p v

/-- The `filepath.WalkDir` callback of `updateVersionFiles`, folded over the
working tree: skip files not named `.version`; fail (aborting the walk, and
leaving earlier updates in place) on non-empty non-semver content; in dry-run
mode leave the tree and index alone; otherwise rewrite the file and stage it.
Returns the walked tree, the index delta, and the callback's error, if any. -/
def walkVersionFiles (dry : Bool) (v : String) :
    List (String × String) → List (String × String) →
    List (String × String) × List (String × String) × Option String
  | [], staged => ([], staged, none)
  | (p, c) :: rest, staged =>
    if baseName p ≠ ".version" then
      let r := walkVersionFiles dry v rest staged
      ((p, c) :: r.1, r.2.1, r.2.2)
    else if c ≠ "" ∧ semverIsValid c = false then
      ((p, c) :: rest, staged, some ("invalid version in file " ++ p ++ ": '" ++ c ++ "'"))
    else if dry then
      let r := walkVersionFiles dry v rest staged
      ((p, c) :: r.1, r.2.1, r.2.2)
    else
      let r := walkVersionFiles dry v rest (addToIndex staged p v)
      ((p, v) :: r.1, r.2.1, r.2.2)

/-- A deterministic stand-in for the hash of a newly created commit. -/
def commitHash (parent msg : String) : String :=
  "commit(" ++ parent ++ "," ++ msg ++ ")"

/-- Models go-git's `Worktree.Commit` as exercised by this repository (see
`TestUpdateVersionFiles`): when the index does not differ from HEAD, no commit
is created and no error is reported; otherwise the staged changes become a new
commit and HEAD advances. -/
def commit (st : RepoState) (msg : String) : RepoState :=
  if st.staged.isEmpty then st
  else
    { files := st.files, staged := [], commits := st.commits ++ [msg],
      tags := st.tags, headHash := commitHash st.headHash msg }

/-- `updateVersionFiles` from main.go: walk the tree updating `.version`
files, then commit. The resulting state is returned alongside the outcome even
when the walk fails, so that partial updates stay observable. -/
def updateVersionFiles (st : RepoState) (cfg : config) (newVersion : String) :
    RepoState × Except String Unit :=
  match walkVersionFiles cfg.dryRun newVersion st.files st.staged with
  | (fs, stg, some e) =>
    ({ files := fs, staged := stg, commits := st.commits, tags := st.tags,
       headHash := st.headHash },
     .error ("failed to walk directory: " ++ e))
  | (fs, stg, none) =>
    let st1 : RepoState :=
      { files := fs, staged := stg, commits := st.commits, tags := st.tags,
        headHash := st.headHash }
    (commit st1 ("bump version to " ++ newVersion), .ok ())

/-- A deterministic stand-in for the hash of a created tag reference. -/
def tagRefHash (v h : String) : String := "tag(" ++ v ++ "," ++ h ++ ")"

/-- `tagVersion` from main.go: in dry-run mode report the current HEAD hash
and change nothing; otherwise create the annotated tag (go-git's `CreateTag`
fails if the name already exists). -/
def tagVersion (st : RepoState) (cfg : config) (v : String) :
    Except String (String × RepoState) :=
  if cfg.dryRun then .ok (st.headHash, st)
  else if v ∈ st.tags then .error "failed to create tag: tag already exists"
  else
    .ok (tagRefHash v st.headHash,
      { files := st.files, staged := st.staged, commits := st.commits,
        tags := st.tags ++ [v], headHash := st.headHash })

/-- The aspect of `worktree.Status().IsClean()` that this model tracks:
whether the index differs from HEAD. -/
def isClean (st : RepoState) : Bool := st.staged.isEmpty

/-- The mutating pipeline of `run` from main.go after flag parsing: the
cleanliness check (bypassed by `-force`), then either the explicit-version
path or resolve-and-increment, then `updateVersionFiles` and `tagVersion`.
Returns the final repository state and the reported tag reference. -/
def runModel (cfg : config) (st : RepoState) : Except String (RepoState × String) :=
  if isClean st = false ∧ cfg.forced = false then
    .error "repository is not clean (use -force to override)"
  else if cfg.version ≠ "" then
    if semverIsValid cfg.version = false then
      .error ("invalid semantic version string: '" ++ cfg.version ++ "'")
    else
      match updateVersionFiles st cfg cfg.version with
      | (_, .error e) => .error ("updateVersionFiles: " ++ e)
      | (st1, .ok _) =>
        match tagVersion st1 cfg cfg.version with
        | .error e => .error ("tagVersion: " ++ e)
        | .ok (h, st2) => .ok (st2, h)
  else
    match lastTag st.tags with
    | .error e => .error ("failed to get last tag: " ++ e)
    | .ok currentVersion =>
      match incrementVersion currentVersion cfg with
      | .error e => .error ("incrementVersion: " ++ e)
      | .ok newVersion =>
        match updateVersionFiles st cfg newVersion with
        | (_, .error e) => .error ("updateVersionFiles: " ++ e)
        | (st1, .ok _) =>
          match tagVersion st1 cfg newVersion with
          | .error e => .error ("tagVersion: " ++ e)
          | .ok (h, st2) => .ok (st2, h)

/-! ## The ignore-rule matcher -/

/-- Modelled from the spec: the rule type of the `.bumpignore` mechanism
(`ignoreRule` in the current main.go; that function body is absent from the
provided source copies, only its tests remain). A rule is a pattern plus an
`anchored` flag (a leading `/` in the ignore file). -/
structure ignoreRule where
  pattern : String
  anchored : Bool
deriving DecidableEq

/-- Modelled from the spec: whether one ignore rule matches a relative path.
An anchored rule matches only when the path equals the pattern exactly; an
unanchored rule matches when any path component equals the pattern, at any
depth. -/
def ruleMatches (path : String) (r : ignoreRule) : Bool :=
  if r.anchored then path == r.pattern
  else (splitOnChar '/' path.data).contains r.pattern.data

/-- Modelled from the spec: `shouldIgnore` — a path is ignored iff some rule
matches it. -/
def shouldIgnore (path : String) (rules : List ignoreRule) : Bool :=
  rules.any (ruleMatches path)

/-! ## Auxiliary objects used by the statements -/

/-- The canonical `vMAJOR.MINOR.PATCH` string with the given components. -/
def canonV (ma mi pa : Nat) : String :=
  "v" ++ natRepr ma ++ "." ++ natRepr mi ++ "." ++ natRepr pa

/-- The configuration produced by a plain `-patch` invocation. -/
def patchCfg : config := ⟨"", .incrementPatch, false, false⟩

/-- The configuration produced by a plain `-minor` invocation. -/
def minorCfg : config := ⟨"", .incrementMinor, false, false⟩

/-- The configuration produced by a plain `-major` invocation. -/
def majorCfg : config := ⟨"", .incrementMajor, false, false⟩

/-- The content of the file at path `p`, if present. -/
def fileContent (files : List (String × String)) (p : String) : Option String :=
  (files.find? (fun e => e.1 == p)).map (fun e => e.2)

/-- A repository whose index already holds a staged change (the working tree
is dirty, so reaching the pipeline requires `-force`), with one valid version
tag. -/
def dirtyState : RepoState :=
  ⟨[("a.txt", "new")], [("a.txt", "new")], ["c0"], ["v1.0.0"], "h0"⟩

/-- The configuration produced by `-patch -dry-run -force`. -/
def dryForcedCfg : config := ⟨"", .incrementPatch, true, true⟩

/-! ## Lemmas about decimal digit strings -/

theorem digitChar_isDigit {n : Nat} (h : n < 10) : (digitChar n).isDigit = true := by
  interval_cases n <;> decide

theorem digitChar_toNat {n : Nat} (h : n < 10) : (digitChar n).toNat = 48 + n := by
  interval_cases n <;> decide

theorem digitChar_eq_zero {n : Nat} (h : n < 10) : digitChar n = '0' → n = 0 := by
  interval_cases n <;> decide

theorem valDFrom_append (a : Nat) (xs ys : List Char) :
    valDFrom a (xs ++ ys) = valDFrom (valDFrom a xs) ys := by
  simp [valDFrom, List.foldl_append]

theorem natDigitsAux_spec :
    ∀ (fuel n : Nat) (acc : List Char), n < fuel →
      ∃ ds, natDigitsAux fuel n acc = ds ++ acc ∧ ds ≠ [] ∧
        (∀ c ∈ ds, c.isDigit = true) ∧ valDFrom 0 ds = n ∧
        (∀ c, ds.head? = some c → c = '0' → n = 0) := by
  intro fuel
  induction fuel with
  | zero => intro n acc h; omega
  | succ fuel ih =>
    intro n acc h
    by_cases h10 : n < 10
    · refine ⟨[digitChar n], by simp [natDigitsAux, h10], by simp, ?_, ?_, ?_⟩
      · intro c hc
        simp only [List.mem_singleton] at hc
        subst hc
        exact digitChar_isDigit h10
      · show valDFrom 0 [digitChar n] = n
        simp [valDFrom, digitChar_toNat h10]
      · intro c hc h0
        simp only [List.head?_cons, Option.some.injEq] at hc
        subst hc
        exact digitChar_eq_zero h10 h0
    · have hrec : n / 10 < fuel := by omega
      obtain ⟨ds, hEq, hNe, hDig, hVal, hHead⟩ := ih (n / 10) (digitChar (n % 10) :: acc) hrec
      have hmod : n % 10 < 10 := by omega
      refine ⟨ds ++ [digitChar (n % 10)], ?_, by simp, ?_, ?_, ?_⟩
      · have hq : natDigitsAux (fuel + 1) n acc
            = natDigitsAux fuel (n / 10) (digitChar (n % 10) :: acc) := by
          simp [natDigitsAux, h10]
        rw [hq, hEq, List.append_assoc]
        rfl
      · intro c hc
        rcases List.mem_append.mp hc with hc | hc
        · exact hDig c hc
        · simp only [List.mem_singleton] at hc
          subst hc
          exact digitChar_isDigit hmod
      · rw [valDFrom_append, hVal]
        show valDFrom (n / 10) [digitChar (n % 10)] = n
        simp only [valDFrom, List.foldl_cons, List.foldl_nil, digitChar_toNat hmod]
        omega
      · intro c hc h0
        obtain ⟨d, ds', hds⟩ := List.exists_cons_of_ne_nil hNe
        rw [hds] at hc
        simp only [List.cons_append, List.head?_cons, Option.some.injEq] at hc
        have : n / 10 = 0 := hHead d (by rw [hds]; rfl) (hc.trans h0)
        omega

theorem natDigits_spec (n : Nat) :
    natDigits n ≠ [] ∧ (∀ c ∈ natDigits n, c.isDigit = true) ∧
      valDFrom 0 (natDigits n) = n ∧
      (∀ c, (natDigits n).head? = some c → c = '0' → n = 0) := by
  obtain ⟨ds, hEq, hNe, hDig, hVal, hHead⟩ := natDigitsAux_spec (n + 1) n [] (by omega)
  rw [List.append_nil] at hEq
  have hd : natDigits n = ds := hEq
  rw [hd]
  exact ⟨hNe, hDig, hVal, hHead⟩

theorem natDigits_head_digit (n : Nat) :
    ∃ d ds, natDigits n = d :: ds ∧ d.isDigit = true := by
  obtain ⟨hNe, hDig, -, -⟩ := natDigits_spec n
  obtain ⟨d, ds, hds⟩ := List.exists_cons_of_ne_nil hNe
  exact ⟨d, ds, hds, hDig d (by rw [hds]; exact List.mem_cons_self _ _)⟩

theorem dot_not_mem_natDigits (n : Nat) : '.' ∉ natDigits n := by
  intro hm
  obtain ⟨-, hDig, -, -⟩ := natDigits_spec n
  have := hDig '.' hm
  exact absurd this (by decide)

/-! ## Lemmas about `splitOnChar` -/

theorem splitOnChar_of_not_mem {sep : Char} {xs : List Char} (h : sep ∉ xs) :
    splitOnChar sep xs = [xs] := by
  induction xs with
  | nil => rfl
  | cons c cs ih =>
    have hc : ¬ c = sep := fun e => h (e ▸ List.mem_cons_self c cs)
    have hcs : sep ∉ cs := fun hm => h (List.mem_cons_of_mem _ hm)
    simp [splitOnChar, hc, ih hcs]

theorem splitOnChar_append {sep : Char} {xs : List Char} (rest : List Char) (h : sep ∉ xs) :
    splitOnChar sep (xs ++ sep :: rest) = xs :: splitOnChar sep rest := by
  induction xs with
  | nil => simp [splitOnChar]
  | cons c cs ih =>
    have hc : ¬ c = sep := fun e => h (e ▸ List.mem_cons_self c cs)
    have hcs : sep ∉ cs := fun hm => h (List.mem_cons_of_mem _ hm)
    have hcons := ih hcs
    simp [List.cons_append, splitOnChar, hc, hcons]

/-! ## Lemmas about scanning -/

theorem digit_not_blank {c : Char} (h : c.isDigit = true) : isBlankChar c = false := by
  by_contra hb
  simp only [Bool.not_eq_false] at hb
  unfold isBlankChar at hb
  rcases Bool.or_eq_true_iff.mp hb with hb | hb
  · rw [beq_iff_eq] at hb
    subst hb
    exact absurd h (by decide)
  · rw [beq_iff_eq] at hb
    subst hb
    exact absurd h (by decide)

theorem digit_ne_minus {c : Char} (h : c.isDigit = true) : ¬ c = '-' := by
  intro e; subst e; exact absurd h (by decide)

theorem digit_ne_plus {c : Char} (h : c.isDigit = true) : ¬ c = '+' := by
  intro e; subst e; exact absurd h (by decide)

theorem skipBlanks_cons_of_digit {c : Char} (h : c.isDigit = true) (cs : List Char) :
    skipBlanks (c :: cs) = c :: cs := by
  simp [skipBlanks, digit_not_blank h]

theorem scanDigits_append {ds : List Char} (h : ∀ c ∈ ds, c.isDigit = true)
    (rest : List Char) (a : Nat) :
    scanDigits (ds ++ rest) a = scanDigits rest (valDFrom a ds) := by
  induction ds generalizing a with
  | nil => rfl
  | cons c cs ih =>
    have hc : c.isDigit = true := h c (List.mem_cons_self _ _)
    simp only [List.cons_append, scanDigits, hc, if_true]
    exact ih (fun d hd => h d (List.mem_cons_of_mem _ hd)) _

theorem scanDigits_stop {rest : List Char}
    (h : ∀ c, rest.head? = some c → c.isDigit = false) (a : Nat) :
    scanDigits rest a = (a, rest) := by
  cases rest with
  | nil => rfl
  | cons c cs => simp [scanDigits, h c rfl]

theorem scanUnsigned_canonical {n : Nat} {rest : List Char}
    (hrest : ∀ c, rest.head? = some c → c.isDigit = false) :
    scanUnsigned (natDigits n ++ rest) = some (n, rest) := by
  obtain ⟨-, hDig, hVal, -⟩ := natDigits_spec n
  obtain ⟨d, ds, hds, hd⟩ := natDigits_head_digit n
  rw [hds] at hVal ⊢
  simp only [List.cons_append, scanUnsigned, hd, if_true]
  have hDig' : ∀ c ∈ d :: ds, c.isDigit = true := by rw [← hds]; exact hDig
  have := scanDigits_append hDig' rest 0
  simp only [List.cons_append] at this
  rw [this, scanDigits_stop hrest, hVal]

theorem scanInt_canonical {n : Nat} {rest : List Char} (hn : n ≤ int64MaxN)
    (hrest : ∀ c, rest.head? = some c → c.isDigit = false) :
    scanInt (natDigits n ++ rest) = some ((n : Int), rest) := by
  obtain ⟨d, ds, hds, hd⟩ := natDigits_head_digit n
  have hle : (n : Int) ≤ int64Max := by
    unfold int64Max
    unfold int64MaxN at hn
    omega
  rw [hds, List.cons_append]
  unfold scanInt
  rw [skipBlanks_cons_of_digit hd]
  simp only [digit_ne_minus hd, digit_ne_plus hd, if_false]
  rw [← List.cons_append, ← hds, scanUnsigned_canonical hrest]
  simp [hle]

theorem canonV_data (ma mi pa : Nat) :
    (canonV ma mi pa).data
      = 'v' :: (natDigits ma ++ '.' :: (natDigits mi ++ '.' :: natDigits pa)) := by
  show ("v" ++ natRepr ma ++ "." ++ natRepr mi ++ "." ++ natRepr pa).data = _
  simp only [String.data_append]
  show ['v'] ++ natDigits ma ++ ['.'] ++ natDigits mi ++ ['.'] ++ natDigits pa = _
  simp

theorem head_dot_not_digit {l : List Char} :
    ∀ c : Char, ('.' :: l).head? = some c → c.isDigit = false := by
  intro c hc
  simp only [List.head?_cons, Option.some.injEq] at hc
  subst hc
  decide

theorem scanVddd_canonical {ma mi pa : Nat} (hM : ma ≤ int64MaxN) (hm : mi ≤ int64MaxN)
    (hp : pa ≤ int64MaxN) :
    scanVddd (canonV ma mi pa).data = some ((ma : Int), (mi : Int), (pa : Int)) := by
  have h1 := @scanInt_canonical ma ('.' :: (natDigits mi ++ '.' :: natDigits pa)) hM
    head_dot_not_digit
  have h2 := @scanInt_canonical mi ('.' :: natDigits pa) hm head_dot_not_digit
  have h3 : scanInt (natDigits pa) = some ((pa : Int), ([] : List Char)) := by
    rw [← List.append_nil (natDigits pa)]
    exact scanInt_canonical hp (fun c hc => by simp at hc)
  rw [canonV_data]
  simp [scanVddd, expectChar, h1, h2, h3]

/-! ## Lemmas about the semantic-version parser on canonical strings -/

theorem takeWhile_append_of_all {α : Type} {p : α → Bool} :
    ∀ (xs rest : List α), (∀ c ∈ xs, p c = true) →
      (∀ c, rest.head? = some c → p c = false) →
      (xs ++ rest).takeWhile p = xs ∧ (xs ++ rest).dropWhile p = rest := by
  intro xs
  induction xs with
  | nil =>
    intro rest _ hrest
    cases rest with
    | nil => exact ⟨rfl, rfl⟩
    | cons c cs =>
      simp [List.takeWhile_cons, List.dropWhile_cons, hrest c rfl]
  | cons x xs ih =>
    intro rest hxs hrest
    have hx : p x = true := hxs x (List.mem_cons_self _ _)
    obtain ⟨h1, h2⟩ := ih rest (fun c hc => hxs c (List.mem_cons_of_mem _ hc)) hrest
    simp [List.cons_append, List.takeWhile_cons, List.dropWhile_cons, hx, h1, h2]

theorem parseNum_canonical {n : Nat} {rest : List Char}
    (hrest : ∀ c, rest.head? = some c → c.isDigit = false) :
    parseNum (natDigits n ++ rest) = some (n, rest) := by
  obtain ⟨-, hDig, hVal, hHead⟩ := natDigits_spec n
  obtain ⟨d, ds, hds, hd⟩ := natDigits_head_digit n
  rw [hds] at hVal hHead ⊢
  have hDig' : ∀ c ∈ ds, (fun x => x.isDigit) c = true := by
    intro c hc
    exact hDig c (by rw [hds]; exact List.mem_cons_of_mem _ hc)
  have hrest' : ∀ c, rest.head? = some c → (fun x => x.isDigit) c = false := hrest
  obtain ⟨htake, hdrop⟩ :=
    @takeWhile_append_of_all Char (fun x => x.isDigit) ds rest hDig' hrest'
  rw [List.cons_append]
  simp only [parseNum, hd, if_true, htake, hdrop]
  by_cases h0 : d = '0'
  · have hn0 : n = 0 := hHead d rfl h0
    have hds0 : ds = [] := by
      have h00 : natDigits 0 = ['0'] := by decide
      rw [hn0, h00] at hds
      injection hds with hd0 hds0
      exact hds0.symm
    subst hds0
    rw [if_neg (by simp), hVal]
  · rw [if_neg (fun hand => h0 hand.1), hVal]

theorem parseNum_canonical_nil (n : Nat) : parseNum (natDigits n) = some (n, []) := by
  rw [← List.append_nil (natDigits n)]
  exact parseNum_canonical (fun c hc => by simp at hc)

theorem semverParse_canonical (ma mi pa : Nat) :
    semverParse (canonV ma mi pa) = some ⟨ma, mi, pa, []⟩ := by
  rw [semverParse, canonV_data]
  have h1 := @parseNum_canonical ma ('.' :: (natDigits mi ++ '.' :: natDigits pa))
    head_dot_not_digit
  have h2 := @parseNum_canonical mi ('.' :: natDigits pa) head_dot_not_digit
  have h3 := parseNum_canonical_nil pa
  simp [semverParseChars, expectChar, h1, h2, h3, parsePre, parseBuild]

theorem semverIsValid_canonical (ma mi pa : Nat) : semverIsValid (canonV ma mi pa) = true := by
  rw [semverIsValid, semverParse_canonical]
  rfl

/-! ## Lawfulness of the comparison functions

The sorting argument needs three facts about each comparator: it is
antisymmetric under `Ordering.swap`, its `lt` is transitive, and comparing
equal is a congruence. -/

structure CmpLawful {α : Type} (f : α → α → Ordering) : Prop where
  symm : ∀ a b, f a b = (f b a).swap
  lt_trans : ∀ {a b c}, f a b = .lt → f b c = .lt → f a c = .lt
  eq_congr : ∀ {a b} (c : α), f a b = .eq → f a c = f b c

theorem CmpLawful.eq_congr_right {α : Type} {f : α → α → Ordering} (hf : CmpLawful f)
    {a b : α} (c : α) (h : f a b = .eq) : f c a = f c b := by
  rw [hf.symm c a, hf.symm c b, hf.eq_congr c h]

theorem CmpLawful.gt_iff {α : Type} {f : α → α → Ordering} (hf : CmpLawful f) {a b : α} :
    f a b = .gt ↔ f b a = .lt := by
  rw [hf.symm a b]
  cases f b a <;> simp [Ordering.swap]

theorem CmpLawful.lt_of_lt_of_eq {α : Type} {f : α → α → Ordering} (hf : CmpLawful f)
    {a b c : α} (h1 : f a b = .lt) (h2 : f b c = .eq) : f a c = .lt := by
  rw [← hf.eq_congr_right a h2]
  exact h1

theorem CmpLawful.lt_of_eq_of_lt {α : Type} {f : α → α → Ordering} (hf : CmpLawful f)
    {a b c : α} (h1 : f a b = .eq) (h2 : f b c = .lt) : f a c = .lt := by
  rw [hf.eq_congr c h1]
  exact h2

theorem CmpLawful.cmp_refl {α : Type} {f : α → α → Ordering} (hf : CmpLawful f) (a : α) :
    f a a = .eq := by
  have h := hf.symm a a
  cases he : f a a
  · rw [he] at h; exact absurd h (by decide)
  · rfl
  · rw [he] at h; exact absurd h (by decide)

theorem CmpLawful.comap {α β : Type} {f : β → β → Ordering} (hf : CmpLawful f) (g : α → β) :
    CmpLawful (fun a b => f (g a) (g b)) where
  symm a b := hf.symm _ _
  lt_trans hab hbc := hf.lt_trans hab hbc
  eq_congr c h := hf.eq_congr _ h

theorem CmpLawful.then_comp {α : Type} {f g : α → α → Ordering}
    (hf : CmpLawful f) (hg : CmpLawful g) :
    CmpLawful (fun a b => (f a b).then (g a b)) where
  symm a b := by
    show (f a b).then (g a b) = ((f b a).then (g b a)).swap
    rw [hf.symm a b, hg.symm a b]
    cases f b a <;> cases g b a <;> rfl
  lt_trans {a b c} hab hbc := by
    show (f a c).then (g a c) = .lt
    replace hab : (f a b).then (g a b) = .lt := hab
    replace hbc : (f b c).then (g b c) = .lt := hbc
    cases hfab : f a b <;> rw [hfab] at hab
    case lt =>
      cases hfbc : f b c <;> rw [hfbc] at hbc
      case lt => rw [hf.lt_trans hfab hfbc]; rfl
      case eq => rw [hf.lt_of_lt_of_eq hfab hfbc]; rfl
      case gt => simp [Ordering.then] at hbc
    case eq =>
      have hgab : g a b = .lt := by simpa [Ordering.then] using hab
      cases hfbc : f b c <;> rw [hfbc] at hbc
      case lt => rw [hf.lt_of_eq_of_lt hfab hfbc]; rfl
      case eq =>
        have hgbc : g b c = .lt := by simpa [Ordering.then] using hbc
        have hfac : f a c = .eq := by rw [hf.eq_congr c hfab]; exact hfbc
        rw [hfac]
        simpa [Ordering.then] using hg.lt_trans hgab hgbc
      case gt => simp [Ordering.then] at hbc
    case gt => simp [Ordering.then] at hab
  eq_congr {a b} c h := by
    show (f a c).then (g a c) = (f b c).then (g b c)
    replace h : (f a b).then (g a b) = .eq := h
    have h2 : f a b = .eq ∧ g a b = .eq := by
      cases hfab : f a b <;> rw [hfab] at h
      · simp [Ordering.then] at h
      · exact ⟨rfl, by simpa [Ordering.then] using h⟩
      · simp [Ordering.then] at h
    rw [hf.eq_congr c h2.1, hg.eq_congr c h2.2]

theorem natCmp_lt {a b : Nat} (h : a < b) : natCmp a b = .lt := by
  unfold natCmp
  rw [if_pos h]

theorem natCmp_eq {a b : Nat} (h : a = b) : natCmp a b = .eq := by
  unfold natCmp
  rw [if_neg (by omega), if_pos h]

theorem natCmp_gt {a b : Nat} (h : b < a) : natCmp a b = .gt := by
  unfold natCmp
  rw [if_neg (by omega), if_neg (by omega)]

theorem natCmp_lt_iff {a b : Nat} : natCmp a b = .lt ↔ a < b := by
  constructor
  · intro h
    rcases lt_trichotomy a b with h1 | h1 | h1
    · exact h1
    · rw [natCmp_eq h1] at h; exact absurd h (by decide)
    · rw [natCmp_gt h1] at h; exact absurd h (by decide)
  · exact natCmp_lt

theorem natCmp_eq_iff {a b : Nat} : natCmp a b = .eq ↔ a = b := by
  constructor
  · intro h
    rcases lt_trichotomy a b with h1 | h1 | h1
    · rw [natCmp_lt h1] at h; exact absurd h (by decide)
    · exact h1
    · rw [natCmp_gt h1] at h; exact absurd h (by decide)
  · exact natCmp_eq

theorem natCmp_lawful : CmpLawful natCmp where
  symm a b := by
    rcases lt_trichotomy a b with h | h | h
    · rw [natCmp_lt h, natCmp_gt h]; rfl
    · rw [natCmp_eq h, natCmp_eq h.symm]; rfl
    · rw [natCmp_gt h, natCmp_lt h]; rfl
  lt_trans hab hbc :=
    natCmp_lt (Nat.lt_trans (natCmp_lt_iff.mp hab) (natCmp_lt_iff.mp hbc))
  eq_congr c h := by rw [natCmp_eq_iff.mp h]

theorem charCmp_lawful : CmpLawful charCmp where
  symm a b := natCmp_lawful.symm _ _
  lt_trans hab hbc := natCmp_lawful.lt_trans hab hbc
  eq_congr c h := natCmp_lawful.eq_congr _ h

theorem listCmp_symm {α : Type} {f : α → α → Ordering} (hf : CmpLawful f) :
    ∀ (a b : List α), listCmp f a b = (listCmp f b a).swap := by
  intro a
  induction a with
  | nil => intro b; cases b <;> rfl
  | cons x xs ih =>
    intro b
    cases b with
    | nil => rfl
    | cons y ys =>
      show (f x y).then (listCmp f xs ys) = ((f y x).then (listCmp f ys xs)).swap
      rw [hf.symm x y, ih ys]
      cases f y x <;> cases listCmp f ys xs <;> rfl

theorem listCmp_lt_trans {α : Type} {f : α → α → Ordering} (hf : CmpLawful f) :
    ∀ (a b c : List α), listCmp f a b = .lt → listCmp f b c = .lt → listCmp f a c = .lt := by
  intro a
  induction a with
  | nil =>
    intro b c hab hbc
    cases b with
    | nil => exact absurd hab (by simp [listCmp])
    | cons y ys =>
      cases c with
      | nil => exact absurd hbc (by simp [listCmp])
      | cons z zs => rfl
  | cons x xs ih =>
    intro b c hab hbc
    cases b with
    | nil => exact absurd hab (by simp [listCmp])
    | cons y ys =>
      cases c with
      | nil => exact absurd hbc (by simp [listCmp])
      | cons z zs =>
        replace hab : (f x y).then (listCmp f xs ys) = .lt := hab
        replace hbc : (f y z).then (listCmp f ys zs) = .lt := hbc
        show (f x z).then (listCmp f xs zs) = .lt
        cases hxy : f x y <;> rw [hxy] at hab
        case lt =>
          cases hyz : f y z <;> rw [hyz] at hbc
          case lt => rw [hf.lt_trans hxy hyz]; rfl
          case eq => rw [hf.lt_of_lt_of_eq hxy hyz]; rfl
          case gt => simp [Ordering.then] at hbc
        case eq =>
          have h1 : listCmp f xs ys = .lt := by simpa [Ordering.then] using hab
          cases hyz : f y z <;> rw [hyz] at hbc
          case lt => rw [hf.lt_of_eq_of_lt hxy hyz]; rfl
          case eq =>
            have h2 : listCmp f ys zs = .lt := by simpa [Ordering.then] using hbc
            have h3 : f x z = .eq := by rw [hf.eq_congr z hxy]; exact hyz
            rw [h3]
            simpa [Ordering.then] using ih ys zs h1 h2
          case gt => simp [Ordering.then] at hbc
        case gt => simp [Ordering.then] at hab

theorem listCmp_eq_congr {α : Type} {f : α → α → Ordering} (hf : CmpLawful f) :
    ∀ (a b c : List α), listCmp f a b = .eq → listCmp f a c = listCmp f b c := by
  intro a
  induction a with
  | nil =>
    intro b c hab
    cases b with
    | nil => rfl
    | cons y ys => exact absurd hab (by simp [listCmp])
  | cons x xs ih =>
    intro b c hab
    cases b with
    | nil => exact absurd hab (by simp [listCmp])
    | cons y ys =>
      replace hab : (f x y).then (listCmp f xs ys) = .eq := hab
      have h1 : f x y = .eq := by
        cases h : f x y <;> rw [h] at hab
        · simp [Ordering.then] at hab
        · simp [Ordering.then] at hab
      have h2 : listCmp f xs ys = .eq := by
        rw [h1] at hab
        simpa [Ordering.then] using hab
      cases c with
      | nil => rfl
      | cons z zs =>
        show (f x z).then (listCmp f xs zs) = (f y z).then (listCmp f ys zs)
        rw [hf.eq_congr z h1, ih ys zs h2]

theorem listCmp_lawful {α : Type} {f : α → α → Ordering} (hf : CmpLawful f) :
    CmpLawful (listCmp f) where
  symm := listCmp_symm hf
  lt_trans {a b c} hab hbc := listCmp_lt_trans hf a b c hab hbc
  eq_congr {a b} c h := listCmp_eq_congr hf a b c h

theorem idCmp_lawful : CmpLawful idCmp where
  symm a b := by
    cases a <;> cases b
    · exact natCmp_lawful.symm _ _
    · rfl
    · rfl
    · exact listCmp_symm charCmp_lawful _ _
  lt_trans {a b c} hab hbc := by
    cases a with
    | num na =>
      cases b with
      | num nb =>
        cases c with
        | num nc => exact natCmp_lawful.lt_trans hab hbc
        | str sc => rfl
      | str sb =>
        cases c with
        | num nc => exact absurd hbc (by simp [idCmp])
        | str sc => rfl
    | str sa =>
      cases b with
      | num nb => exact absurd hab (by simp [idCmp])
      | str sb =>
        cases c with
        | num nc => exact absurd hbc (by simp [idCmp])
        | str sc => exact listCmp_lt_trans charCmp_lawful _ _ _ hab hbc
  eq_congr {a b} c h := by
    cases a with
    | num na =>
      cases b with
      | num nb =>
        have hn : na = nb := natCmp_eq_iff.mp h
        rw [hn]
      | str sb => exact absurd h (by simp [idCmp])
    | str sa =>
      cases b with
      | num nb => exact absurd h (by simp [idCmp])
      | str sb =>
        cases c with
        | num nc => rfl
        | str sc => exact listCmp_eq_congr charCmp_lawful _ _ _ h

theorem preCmp_lawful : CmpLawful preCmp where
  symm a b := by
    cases a with
    | nil => cases b <;> rfl
    | cons x xs =>
      cases b with
      | nil => rfl
      | cons y ys =>
        show (idCmp x y).then (listCmp idCmp xs ys)
          = ((idCmp y x).then (listCmp idCmp ys xs)).swap
        rw [idCmp_lawful.symm x y, listCmp_symm idCmp_lawful xs ys]
        cases idCmp y x <;> cases listCmp idCmp ys xs <;> rfl
  lt_trans {a b c} hab hbc := by
    cases a with
    | nil =>
      cases b with
      | nil => exact absurd hab (by simp [preCmp])
      | cons y ys => exact absurd hab (by simp [preCmp])
    | cons x xs =>
      cases b with
      | nil =>
        cases c with
        | nil => rfl
        | cons z zs => exact absurd hbc (by simp [preCmp])
      | cons y ys =>
        cases c with
        | nil => rfl
        | cons z zs =>
          replace hab : (idCmp x y).then (listCmp idCmp xs ys) = .lt := hab
          replace hbc : (idCmp y z).then (listCmp idCmp ys zs) = .lt := hbc
          show (idCmp x z).then (listCmp idCmp xs zs) = .lt
          cases hxy : idCmp x y <;> rw [hxy] at hab
          case lt =>
            cases hyz : idCmp y z <;> rw [hyz] at hbc
            case lt => rw [idCmp_lawful.lt_trans hxy hyz]; rfl
            case eq => rw [idCmp_lawful.lt_of_lt_of_eq hxy hyz]; rfl
            case gt => simp [Ordering.then] at hbc
          case eq =>
            have h1 : listCmp idCmp xs ys = .lt := by simpa [Ordering.then] using hab
            cases hyz : idCmp y z <;> rw [hyz] at hbc
            case lt => rw [idCmp_lawful.lt_of_eq_of_lt hxy hyz]; rfl
            case eq =>
              have h2 : listCmp idCmp ys zs = .lt := by simpa [Ordering.then] using hbc
              have h3 : idCmp x z = .eq := by rw [idCmp_lawful.eq_congr z hxy]; exact hyz
              rw [h3]
              simpa [Ordering.then] using listCmp_lt_trans idCmp_lawful xs ys zs h1 h2
            case gt => simp [Ordering.then] at hbc
          case gt => simp [Ordering.then] at hab
  eq_congr {a b} c h := by
    cases a with
    | nil =>
      cases b with
      | nil => rfl
      | cons y ys => exact absurd h (by simp [preCmp])
    | cons x xs =>
      cases b with
      | nil => exact absurd h (by simp [preCmp])
      | cons y ys =>
        replace h : (idCmp x y).then (listCmp idCmp xs ys) = .eq := h
        have h1 : idCmp x y = .eq := by
          cases hxy : idCmp x y <;> rw [hxy] at h
          · simp [Ordering.then] at h
          · simp [Ordering.then] at h
        have h2 : listCmp idCmp xs ys = .eq := by
          rw [h1] at h
          simpa [Ordering.then] using h
        cases c with
        | nil => rfl
        | cons z zs =>
          show (idCmp x z).then (listCmp idCmp xs zs)
            = (idCmp y z).then (listCmp idCmp ys zs)
          rw [idCmp_lawful.eq_congr z h1, listCmp_eq_congr idCmp_lawful xs ys zs h2]

theorem verCmp_lawful : CmpLawful verCmp := by
  have h := (natCmp_lawful.comap (fun v : SemVer => v.major)).then_comp
    ((natCmp_lawful.comap (fun v : SemVer => v.minor)).then_comp
      ((natCmp_lawful.comap (fun v : SemVer => v.patch)).then_comp
        (preCmp_lawful.comap (fun v : SemVer => v.pre))))
  exact h

theorem optCmp_lawful : CmpLawful optCmp where
  symm a b := by
    cases a <;> cases b
    · rfl
    · rfl
    · rfl
    · exact verCmp_lawful.symm _ _
  lt_trans {a b c} hab hbc := by
    cases a with
    | none =>
      cases b with
      | none => exact absurd hab (by simp [optCmp])
      | some x =>
        cases c with
        | none => exact absurd hbc (by simp [optCmp])
        | some y => rfl
    | some x =>
      cases b with
      | none => exact absurd hab (by simp [optCmp])
      | some y =>
        cases c with
        | none => exact absurd hbc (by simp [optCmp])
        | some z => exact verCmp_lawful.lt_trans hab hbc
  eq_congr {a b} c h := by
    cases a <;> cases b
    · cases c <;> rfl
    · exact absurd h (by simp [optCmp])
    · exact absurd h (by simp [optCmp])
    · cases c
      · rfl
      · exact verCmp_lawful.eq_congr _ h

theorem semverCompare_lawful : CmpLawful semverCompare := by
  have h := optCmp_lawful.comap semverParse
  exact h

/-! ## `semverLess` is a strict total order -/

theorem semverLess_iff {a b : String} :
    semverLess a b = true
      ↔ (semverCompare a b = .lt ∨ (semverCompare a b = .eq ∧ a < b)) := by
  cases h : semverCompare a b
  · simp [semverLess, h]
  · simp [semverLess, h]
  · simp [semverLess, h]

theorem semverLess_asymm {a b : String} (h : semverLess a b = true) :
    semverLess b a = false := by
  rcases semverLess_iff.mp h with h1 | ⟨h1, h2⟩
  · have hba : semverCompare b a = .gt := semverCompare_lawful.gt_iff.mpr h1
    unfold semverLess
    rw [hba]
  · have hba : semverCompare b a = .eq := by
      rw [semverCompare_lawful.symm b a, h1]
      rfl
    unfold semverLess
    rw [hba]
    simp only [decide_eq_false_iff_not]
    exact lt_asymm h2

theorem semverLess_trans {a b c : String} (h1 : semverLess a b = true)
    (h2 : semverLess b c = true) : semverLess a c = true := by
  rcases semverLess_iff.mp h1 with ha | ⟨ha, ha'⟩ <;>
    rcases semverLess_iff.mp h2 with hb | ⟨hb, hb'⟩
  · exact semverLess_iff.mpr (.inl (semverCompare_lawful.lt_trans ha hb))
  · exact semverLess_iff.mpr (.inl (semverCompare_lawful.lt_of_lt_of_eq ha hb))
  · exact semverLess_iff.mpr (.inl (semverCompare_lawful.lt_of_eq_of_lt ha hb))
  · refine semverLess_iff.mpr (.inr ⟨?_, lt_trans ha' hb'⟩)
    rw [semverCompare_lawful.eq_congr c ha]
    exact hb

instance : IsTotal String semverLE where
  total a b := by
    cases hb : semverLess b a
    · exact Or.inl hb
    · exact Or.inr (semverLess_asymm hb)

instance : IsTrans String semverLE where
  trans a b c hab hbc := by
    replace hab : semverLess b a = false := hab
    replace hbc : semverLess c b = false := hbc
    show semverLess c a = false
    cases hca : semverLess c a
    · rfl
    · exfalso
      rcases semverLess_iff.mp hca with h1 | ⟨h1, h2⟩
      · cases hcb : semverCompare c b
        · have := semverLess_iff.mpr (.inl hcb)
          rw [hbc] at this
          simp at this
        · have hba : semverCompare b a = .lt := by
            rw [← semverCompare_lawful.eq_congr a hcb]
            exact h1
          have := semverLess_iff.mpr (.inl hba)
          rw [hab] at this
          simp at this
        · have hbc2 : semverCompare b c = .lt := semverCompare_lawful.gt_iff.mp hcb
          have hba : semverCompare b a = .lt := semverCompare_lawful.lt_trans hbc2 h1
          have := semverLess_iff.mpr (.inl hba)
          rw [hab] at this
          simp at this
      · cases hcb : semverCompare c b
        · have := semverLess_iff.mpr (.inl hcb)
          rw [hbc] at this
          simp at this
        · have hba : semverCompare b a = .eq := by
            rw [← semverCompare_lawful.eq_congr a hcb]
            exact h1
          have hncb : ¬ c < b := by
            intro hlt
            have := semverLess_iff.mpr (.inr ⟨hcb, hlt⟩)
            rw [hbc] at this
            simp at this
          have hblta : b < a := lt_of_le_of_lt (le_of_not_lt hncb) h2
          have := semverLess_iff.mpr (.inr ⟨hba, hblta⟩)
          rw [hab] at this
          simp at this
        · have hbc2 : semverCompare b c = .lt := semverCompare_lawful.gt_iff.mp hcb
          have hba : semverCompare b a = .lt :=
            semverCompare_lawful.lt_of_lt_of_eq hbc2 h1
          have := semverLess_iff.mpr (.inl hba)
          rw [hab] at this
          simp at this

theorem semverLE_refl (a : String) : semverLE a a := by
  show semverLess a a = false
  cases h : semverLess a a
  · rfl
  · have := semverLess_asymm h
    rw [h] at this
    exact absurd this (by decide)

/-! ## The last element of `semverSort` is a maximum -/

theorem semverSort_sorted (l : List String) : List.Sorted semverLE (semverSort l) :=
  List.sorted_insertionSort semverLE l

theorem semverSort_perm (l : List String) : List.Perm (semverSort l) l :=
  List.perm_insertionSort semverLE l

theorem sorted_getLast_max {l : List String} (h : List.Sorted semverLE l) (hne : l ≠ []) :
    ∀ x ∈ l, semverLE x (l.getLast hne) := by
  intro x hx
  have hdrop := List.dropLast_append_getLast hne
  have hx2 : x ∈ l.dropLast ++ [l.getLast hne] := by rw [hdrop]; exact hx
  rcases List.mem_append.mp hx2 with hx1 | hx1
  · have hpw : List.Pairwise semverLE (l.dropLast ++ [l.getLast hne]) := by
      rw [hdrop]
      exact h
    exact (List.pairwise_append.mp hpw).2.2 x hx1 _ (List.mem_singleton.mpr rfl)
  · rw [List.mem_singleton.mp hx1]
    exact semverLE_refl _

theorem lastTag_ok_max {names : List String}
    (h : names.filter (fun t => semverIsValid t) ≠ []) :
    ∃ m, lastTag names = .ok m ∧ m ∈ names.filter (fun t => semverIsValid t) ∧
      ∀ t ∈ names.filter (fun t => semverIsValid t), semverCompare t m ≠ .gt := by
  have hlen : ¬ (names.filter (fun t => semverIsValid t)).length = 0 := by
    intro h0
    exact h (List.length_eq_zero.mp h0)
  have hslen : (semverSort (names.filter (fun t => semverIsValid t))).length
      = (names.filter (fun t => semverIsValid t)).length :=
    (semverSort_perm _).length_eq
  have hsne : semverSort (names.filter (fun t => semverIsValid t)) ≠ [] := by
    intro h0
    rw [h0] at hslen
    exact hlen hslen.symm
  refine ⟨(semverSort (names.filter (fun t => semverIsValid t))).getLast hsne, ?_, ?_, ?_⟩
  · show lastTag names = _
    unfold lastTag
    rw [if_neg hlen]
    have hpos : 0 < (semverSort (names.filter (fun t => semverIsValid t))).length := by
      omega
    show Except.ok ((semverSort (names.filter (fun t => semverIsValid t))).getD
        ((semverSort (names.filter (fun t => semverIsValid t))).length - 1) "") = _
    rw [List.getD_eq_getElem (semverSort (names.filter (fun t => semverIsValid t))) ""
      (by omega), List.getLast_eq_getElem]
  · exact (semverSort_perm _).mem_iff.mp (List.getLast_mem hsne)
  · intro t ht hgt
    have ht2 : t ∈ semverSort (names.filter (fun t => semverIsValid t)) :=
      (semverSort_perm _).mem_iff.mpr ht
    have hle := sorted_getLast_max (semverSort_sorted _) hsne t ht2
    replace hle : semverLess
        ((semverSort (names.filter (fun t => semverIsValid t))).getLast hsne) t = false := hle
    have hlt : semverCompare
        ((semverSort (names.filter (fun t => semverIsValid t))).getLast hsne) t = .lt :=
      semverCompare_lawful.gt_iff.mp hgt
    have := semverLess_iff.mpr (.inl hlt)
    rw [hle] at this
    exact absurd this (by decide)

/-! ## Lemmas about `incrementVersion` on canonical inputs -/

theorem wrap64_id {i : Int} (h1 : int64Min ≤ i) (h2 : i ≤ int64Max) : wrap64 i = i := by
  unfold wrap64
  unfold int64Min at h1
  unfold int64Max at h2
  omega

theorem wrap64_succ {pa : Nat} (h : pa + 1 ≤ int64MaxN) :
    wrap64 ((pa : Int) + 1) = ((pa + 1 : Nat) : Int) := by
  have h1 : int64Min ≤ (pa : Int) + 1 := by unfold int64Min; omega
  have h2 : (pa : Int) + 1 ≤ int64Max := by
    unfold int64Max
    unfold int64MaxN at h
    omega
  rw [wrap64_id h1 h2]
  omega

theorem intRepr_natCast (n : Nat) : intRepr (n : Int) = natRepr n := by
  unfold intRepr
  rw [if_neg (by omega), Int.toNat_natCast]

theorem sprintfV_natCast (a b c : Nat) :
    sprintfV (a : Int) (b : Int) (c : Int) = canonV a b c := by
  unfold sprintfV canonV
  rw [intRepr_natCast, intRepr_natCast, intRepr_natCast]

theorem canonV_split (ma mi pa : Nat) :
    splitOnChar '.' (canonV ma mi pa).data
      = [('v' :: natDigits ma), natDigits mi, natDigits pa] := by
  rw [canonV_data]
  have h1 : '.' ∉ 'v' :: natDigits ma := by
    intro hm
    rcases List.mem_cons.mp hm with h | h
    · exact absurd h (by decide)
    · exact dot_not_mem_natDigits ma h
  rw [show 'v' :: (natDigits ma ++ '.' :: (natDigits mi ++ '.' :: natDigits pa))
      = ('v' :: natDigits ma) ++ '.' :: (natDigits mi ++ '.' :: natDigits pa) from rfl]
  rw [splitOnChar_append _ h1, splitOnChar_append _ (dot_not_mem_natDigits mi),
    splitOnChar_of_not_mem (dot_not_mem_natDigits pa)]

theorem incrementVersion_canonV_patch {ma mi pa : Nat} (hM : ma ≤ int64MaxN)
    (hm : mi ≤ int64MaxN) (hp : pa ≤ int64MaxN) (hb : pa + 1 ≤ int64MaxN) :
    incrementVersion (canonV ma mi pa) patchCfg = .ok (canonV ma mi (pa + 1)) := by
  have hsplit : (splitOnChar '.' (canonV ma mi pa).data).length = 3 := by
    rw [canonV_split]
    rfl
  unfold incrementVersion
  rw [if_neg (fun hne => hne hsplit), scanVddd_canonical hM hm hp]
  show Except.ok (sprintfV (ma : Int) (mi : Int) (wrap64 ((pa : Int) + 1)))
      = Except.ok (canonV ma mi (pa + 1))
  rw [wrap64_succ hb, sprintfV_natCast]

theorem incrementVersion_canonV_minor {ma mi pa : Nat} (hM : ma ≤ int64MaxN)
    (hm : mi ≤ int64MaxN) (hp : pa ≤ int64MaxN) (hb : mi + 1 ≤ int64MaxN) :
    incrementVersion (canonV ma mi pa) minorCfg = .ok (canonV ma (mi + 1) 0) := by
  have hsplit : (splitOnChar '.' (canonV ma mi pa).data).length = 3 := by
    rw [canonV_split]
    rfl
  unfold incrementVersion
  rw [if_neg (fun hne => hne hsplit), scanVddd_canonical hM hm hp]
  show Except.ok (sprintfV (ma : Int) (wrap64 ((mi : Int) + 1)) ((0 : Nat) : Int))
      = Except.ok (canonV ma (mi + 1) 0)
  rw [wrap64_succ hb, sprintfV_natCast]

theorem incrementVersion_canonV_major {ma mi pa : Nat} (hM : ma ≤ int64MaxN)
    (hm : mi ≤ int64MaxN) (hp : pa ≤ int64MaxN) (hb : ma + 1 ≤ int64MaxN) :
    incrementVersion (canonV ma mi pa) majorCfg = .ok (canonV (ma + 1) 0 0) := by
  have hsplit : (splitOnChar '.' (canonV ma mi pa).data).length = 3 := by
    rw [canonV_split]
    rfl
  unfold incrementVersion
  rw [if_neg (fun hne => hne hsplit), scanVddd_canonical hM hm hp]
  show Except.ok (sprintfV (wrap64 ((ma : Int) + 1)) ((0 : Nat) : Int) ((0 : Nat) : Int))
      = Except.ok (canonV (ma + 1) 0 0)
  rw [wrap64_succ hb, sprintfV_natCast]

theorem canonV_cmp_patch {ma mi pa pa' : Nat} (h : pa < pa') :
    semverCompare (canonV ma mi pa) (canonV ma mi pa') = .lt := by
  unfold semverCompare
  rw [semverParse_canonical, semverParse_canonical]
  show verCmp ⟨ma, mi, pa, []⟩ ⟨ma, mi, pa', []⟩ = .lt
  unfold verCmp
  rw [natCmp_eq rfl, natCmp_eq rfl, natCmp_lt h]
  rfl

theorem canonV_cmp_minor {ma mi mi' pa pa' : Nat} (h : mi < mi') :
    semverCompare (canonV ma mi pa) (canonV ma mi' pa') = .lt := by
  unfold semverCompare
  rw [semverParse_canonical, semverParse_canonical]
  show verCmp ⟨ma, mi, pa, []⟩ ⟨ma, mi', pa', []⟩ = .lt
  unfold verCmp
  rw [natCmp_eq rfl, natCmp_lt h]
  rfl

theorem canonV_cmp_major {ma ma' mi mi' pa pa' : Nat} (h : ma < ma') :
    semverCompare (canonV ma mi pa) (canonV ma' mi' pa') = .lt := by
  unfold semverCompare
  rw [semverParse_canonical, semverParse_canonical]
  show verCmp ⟨ma, mi, pa, []⟩ ⟨ma', mi', pa', []⟩ = .lt
  unfold verCmp
  rw [natCmp_lt h]
  rfl

/-! ## Lemmas about `lastTag` -/

theorem lastTag_none {names : List String}
    (h : ∀ t ∈ names, semverIsValid t = false) :
    lastTag names = .error "no version tags found in the repository" := by
  have hfil : names.filter (fun t => semverIsValid t) = [] :=
    List.filter_eq_nil_iff.mpr (fun a ha => by rw [h a ha]; exact fun hc => absurd hc (by decide))
  unfold lastTag
  rw [if_pos (by rw [hfil]; rfl)]

/-! ## Lemmas about the version-file walk -/

theorem walkVersionFiles_no_version (dry : Bool) (v : String) :
    ∀ (files staged : List (String × String)),
      (∀ e ∈ files, baseName e.1 ≠ ".version") →
      walkVersionFiles dry v files staged = (files, staged, none) := by
  intro files
  induction files with
  | nil => intro staged _; rfl
  | cons e rest ih =>
    intro staged h
    obtain ⟨p, c⟩ := e
    have hp : baseName p ≠ ".version" := h (p, c) (List.mem_cons_self _ _)
    simp only [walkVersionFiles, if_pos hp]
    rw [ih staged (fun e2 he => h e2 (List.mem_cons_of_mem _ he))]

theorem updateVersionFiles_no_files {st : RepoState} {cfg : config} {v : String}
    (hstaged : st.staged = []) (hfiles : ∀ e ∈ st.files, baseName e.1 ≠ ".version") :
    updateVersionFiles st cfg v = (st, .ok ()) := by
  unfold updateVersionFiles
  rw [walkVersionFiles_no_version _ _ _ _ hfiles]
  show (commit st ("bump version to " ++ v), Except.ok ()) = (st, .ok ())
  unfold commit
  rw [if_pos (by rw [hstaged]; rfl)]

theorem updateVersionFiles_commit_needs_file {st : RepoState} {cfg : config} {v : String}
    (hstaged : st.staged = [])
    (hchange : ((updateVersionFiles st cfg v).1).commits ≠ st.commits) :
    ∃ e ∈ st.files, baseName e.1 = ".version" := by
  by_contra hno
  push_neg at hno
  rw [updateVersionFiles_no_files hstaged hno] at hchange
  exact hchange rfl

theorem addToIndex_mem {p v : String} :
    ∀ (staged : List (String × String)), ∀ e ∈ addToIndex staged p v,
      e ∈ staged ∨ e = (p, v) := by
  intro staged
  induction staged with
  | nil =>
    intro e he
    simp only [addToIndex, List.mem_singleton] at he
    exact Or.inr he
  | cons x rest ih =>
    intro e he
    obtain ⟨q, c⟩ := x
    simp only [addToIndex] at he
    by_cases hq : q = p
    · rw [if_pos hq] at he
      rcases List.mem_cons.mp he with h | h
      · exact Or.inr h
      · exact Or.inl (List.mem_cons_of_mem _ h)
    · rw [if_neg hq] at he
      rcases List.mem_cons.mp he with h | h
      · exact Or.inl (h ▸ List.mem_cons_self _ _)
      · rcases ih e h with h2 | h2
        · exact Or.inl (List.mem_cons_of_mem _ h2)
        · exact Or.inr h2

theorem walkVersionFiles_frame (dry : Bool) (v : String) :
    ∀ (files staged : List (String × String)),
      List.Forall₂ (fun a b : String × String =>
        a.1 = b.1 ∧ (baseName a.1 ≠ ".version" → a = b))
        files (walkVersionFiles dry v files staged).1 ∧
      (∀ e ∈ (walkVersionFiles dry v files staged).2.1,
        e ∈ staged ∨ baseName e.1 = ".version") := by
  intro files
  induction files with
  | nil =>
    intro staged
    exact ⟨List.Forall₂.nil, fun e he => Or.inl he⟩
  | cons x rest ih =>
    intro staged
    obtain ⟨p, c⟩ := x
    by_cases hp : baseName p ≠ ".version"
    · have heq : walkVersionFiles dry v ((p, c) :: rest) staged
          = ((p, c) :: (walkVersionFiles dry v rest staged).1,
             (walkVersionFiles dry v rest staged).2.1,
             (walkVersionFiles dry v rest staged).2.2) := by
        simp only [walkVersionFiles, if_pos hp]
      rw [heq]
      exact ⟨List.Forall₂.cons ⟨rfl, fun _ => rfl⟩ (ih staged).1, (ih staged).2⟩
    · push_neg at hp
      have hnn : ¬ (baseName p ≠ ".version") := fun hne => hne hp
      by_cases herr : c ≠ "" ∧ semverIsValid c = false
      · have heq : walkVersionFiles dry v ((p, c) :: rest) staged
            = ((p, c) :: rest, staged,
               some ("invalid version in file " ++ p ++ ": '" ++ c ++ "'")) := by
          simp only [walkVersionFiles, if_neg hnn, if_pos herr]
        rw [heq]
        refine ⟨?_, fun e he => Or.inl he⟩
        exact List.forall₂_same.mpr (fun a _ => ⟨rfl, fun _ => rfl⟩)
      · cases dry with
        | true =>
          have heq : walkVersionFiles true v ((p, c) :: rest) staged
              = ((p, c) :: (walkVersionFiles true v rest staged).1,
                 (walkVersionFiles true v rest staged).2.1,
                 (walkVersionFiles true v rest staged).2.2) := by
            simp only [walkVersionFiles, if_neg hnn, if_neg herr]
            rfl
          rw [heq]
          exact ⟨List.Forall₂.cons ⟨rfl, fun _ => rfl⟩ (ih staged).1, (ih staged).2⟩
        | false =>
          have heq : walkVersionFiles false v ((p, c) :: rest) staged
              = ((p, v) :: (walkVersionFiles false v rest (addToIndex staged p v)).1,
                 (walkVersionFiles false v rest (addToIndex staged p v)).2.1,
                 (walkVersionFiles false v rest (addToIndex staged p v)).2.2) := by
            simp only [walkVersionFiles, if_neg hnn, if_neg herr]
            rfl
          rw [heq]
          refine ⟨List.Forall₂.cons ⟨rfl, fun hne => absurd hp hne⟩
            (ih (addToIndex staged p v)).1, ?_⟩
          intro e he
          rcases (ih (addToIndex staged p v)).2 e he with h2 | h2
          · rcases addToIndex_mem staged e h2 with h3 | h3
            · exact Or.inl h3
            · refine Or.inr ?_
              rw [h3]
              exact hp
          · exact Or.inr h2

theorem commit_files (st : RepoState) (m : String) : (commit st m).files = st.files := by
  unfold commit
  split <;> rfl

theorem commit_staged (st : RepoState) (m : String) :
    (commit st m).staged = st.staged ∨ (commit st m).staged = [] := by
  unfold commit
  split
  · exact Or.inl rfl
  · exact Or.inr rfl

theorem fileContent_frame :
    ∀ {files files' : List (String × String)},
      List.Forall₂ (fun a b : String × String =>
        a.1 = b.1 ∧ (baseName a.1 ≠ ".version" → a = b)) files files' →
      ∀ p, baseName p ≠ ".version" → fileContent files' p = fileContent files p := by
  intro files files' h
  induction h with
  | nil => intro p _; rfl
  | @cons a b l1 l2 hab htail ih =>
    intro p hp
    show fileContent (b :: l2) p = fileContent (a :: l1) p
    unfold fileContent
    by_cases hq : a.1 = p
    · have hcopy : a = b := hab.2 (by rw [hq]; exact hp)
      have hqb : b.1 = p := by rw [← hab.1]; exact hq
      rw [List.find?_cons_of_pos _ (by simp [hqb]), List.find?_cons_of_pos _ (by simp [hq]),
        hcopy]
    · have hqb : ¬ b.1 = p := by rw [← hab.1]; exact hq
      rw [List.find?_cons_of_neg _ (by simp [hqb]), List.find?_cons_of_neg _ (by simp [hq])]
      exact ih p hp

theorem updateVersionFiles_frame_parts (st : RepoState) (cfg : config) (v : String) :
    (∀ p, baseName p ≠ ".version" →
        fileContent (updateVersionFiles st cfg v).1.files p = fileContent st.files p) ∧
    (∀ e ∈ (updateVersionFiles st cfg v).1.staged,
        e ∈ st.staged ∨ baseName e.1 = ".version") := by
  obtain ⟨hf2, hstg⟩ := walkVersionFiles_frame cfg.dryRun v st.files st.staged
  unfold updateVersionFiles
  rcases hw : walkVersionFiles cfg.dryRun v st.files st.staged with ⟨fs, stg, err⟩
  rw [hw] at hf2 hstg
  cases err with
  | some e =>
    constructor
    · intro p hp
      exact fileContent_frame hf2 p hp
    · intro e2 he
      exact hstg e2 he
  | none =>
    constructor
    · intro p hp
      rw [commit_files]
      exact fileContent_frame hf2 p hp
    · intro e2 he
      rcases commit_staged
        ⟨fs, stg, st.commits, st.tags, st.headHash⟩ ("bump version to " ++ v) with hcs | hcs
      · rw [hcs] at he
        exact hstg e2 he
      · rw [hcs] at he
        simp at he

/-! ## The claims -/

/-- C1 (amended): for components within Go's 64-bit `int` range whose bumped
component still fits, `incrementVersion` computes the documented arithmetic:
patch gives `v ma.mi.(pa+1)`, minor gives `v ma.(mi+1).0`, major gives
`v (ma+1).0.0`. -/
theorem incrementVersion_bump_arith (ma mi pa : Nat) (hM : ma ≤ int64MaxN)
    (hm : mi ≤ int64MaxN) (hp : pa ≤ int64MaxN) :
    (pa + 1 ≤ int64MaxN →
      incrementVersion (canonV ma mi pa) patchCfg = .ok (canonV ma mi (pa + 1))) ∧
    (mi + 1 ≤ int64MaxN →
      incrementVersion (canonV ma mi pa) minorCfg = .ok (canonV ma (mi + 1) 0)) ∧
    (ma + 1 ≤ int64MaxN →
      incrementVersion (canonV ma mi pa) majorCfg = .ok (canonV (ma + 1) 0 0)) :=
  ⟨fun hb => incrementVersion_canonV_patch hM hm hp hb,
   fun hb => incrementVersion_canonV_minor hM hm hp hb,
   fun hb => incrementVersion_canonV_major hM hm hp hb⟩

/-- Witness for `incrementVersion_bump_arith` at the spec's examples:
`v1.2.9` with a minor bump gives `v1.3.0`, `v999.999.999` with a patch bump
gives `v999.999.1000`. -/
theorem incrementVersion_bump_arith_witness :
    (1 ≤ int64MaxN ∧ 2 ≤ int64MaxN ∧ 9 ≤ int64MaxN ∧ 2 + 1 ≤ int64MaxN ∧
      999 ≤ int64MaxN ∧ 999 + 1 ≤ int64MaxN) ∧
    incrementVersion (canonV 1 2 9) minorCfg = .ok (canonV 1 3 0) ∧
    incrementVersion (canonV 999 999 999) patchCfg = .ok (canonV 999 999 1000) :=
  ⟨⟨by decide, by decide, by decide, by decide, by decide, by decide⟩,
   (incrementVersion_bump_arith 1 2 9 (by decide) (by decide) (by decide)).2.1 (by decide),
   (incrementVersion_bump_arith 999 999 999 (by decide) (by decide)
     (by decide)).1 (by decide)⟩

/-- C1 counterexample: with a component at Go's `int` maximum the bump wraps
to a negative number, and a component one beyond the maximum fails to scan,
so the documented arithmetic does not hold for all non-negative components. -/
theorem incrementVersion_int64_overflow :
    incrementVersion "v0.0.9223372036854775807" patchCfg
      = .ok "v0.0.-9223372036854775808" ∧
    incrementVersion "v9223372036854775808.0.0" patchCfg
      = .error "failed to parse current version('v9223372036854775808.0.0')" ∧
    "v0.0.-9223372036854775808" ≠ "v0.0.9223372036854775808" :=
  ⟨by decide, by decide, by decide⟩

/-- C2: over tag names with no syntactically valid semantic version (also the
empty set), `lastTag` fails with exactly the error "no version tags found in
the repository"; and whenever the filtered set is non-empty, the index
`length - 1` that the code reads is within bounds of the sorted list, so the
indexing cannot go out of bounds. -/
theorem lastTag_no_valid_tags :
    (∀ names : List String, (∀ t ∈ names, semverIsValid t = false) →
      lastTag names = .error "no version tags found in the repository") ∧
    (∀ names : List String, names.filter (fun t => semverIsValid t) ≠ [] →
      (semverSort (names.filter (fun t => semverIsValid t))).length - 1
        < (semverSort (names.filter (fun t => semverIsValid t))).length ∧
      ∃ v, lastTag names = .ok v) := by
  constructor
  · intro names h
    exact lastTag_none h
  · intro names h
    have hlen := (semverSort_perm (names.filter (fun t => semverIsValid t))).length_eq
    have hne : (names.filter (fun t => semverIsValid t)).length ≠ 0 :=
      fun h0 => h (List.length_eq_zero.mp h0)
    refine ⟨by omega, ?_⟩
    obtain ⟨m, hm, -, -⟩ := lastTag_ok_max h
    exact ⟨m, hm⟩

/-- Witness for `lastTag_no_valid_tags`: a repository with no tags and one
with only invalid tags (the tests' cases), and one valid-tag repository for
the in-bounds part. -/
theorem lastTag_no_valid_tags_witness :
    ((∀ t ∈ ([] : List String), semverIsValid t = false) ∧
      lastTag [] = .error "no version tags found in the repository") ∧
    ((∀ t ∈ ["not-a-version", "also-not-a-version"], semverIsValid t = false) ∧
      lastTag ["not-a-version", "also-not-a-version"]
        = .error "no version tags found in the repository") ∧
    ((["v1.0.0"].filter (fun t => semverIsValid t) ≠ []) ∧
      (semverSort (["v1.0.0"].filter (fun t => semverIsValid t))).length - 1
        < (semverSort (["v1.0.0"].filter (fun t => semverIsValid t))).length ∧
      ∃ v, lastTag ["v1.0.0"] = .ok v) :=
  ⟨⟨by decide, lastTag_no_valid_tags.1 [] (by decide)⟩,
   ⟨by decide, lastTag_no_valid_tags.1 ["not-a-version", "also-not-a-version"] (by decide)⟩,
   ⟨by decide, lastTag_no_valid_tags.2 ["v1.0.0"] (by decide)⟩⟩

/-- C3 (code bug): a forced dry run over a repository with a pre-staged
change creates a commit. `updateVersionFiles` calls `commit` unconditionally,
also in dry-run mode, and committing picks up whatever the index holds; here
the run succeeds and the commit count grows from 1 to 2, although
`dryRun = true`. -/
theorem dry_run_commits_prestaged_changes :
    dryForcedCfg.dryRun = true ∧
    (runModel dryForcedCfg dirtyState).toOption.map (fun x => x.1.commits.length)
      = some (dirtyState.commits.length + 1) :=
  ⟨rfl, by decide⟩

/-- C4 (amended): in normal mode over a tree with no `.version` files and an
index holding no pre-staged changes (the state every run that passed the
cleanliness check is in), `updateVersionFiles` succeeds and leaves the state
— in particular the commit list — unchanged; and under a clean index, if the
commit list changed, the tree must have contained a `.version` file. -/
theorem updateVersionFiles_no_files_no_commit :
    (∀ (st : RepoState) (cfg : config) (v : String), cfg.dryRun = false →
      st.staged = [] → (∀ e ∈ st.files, baseName e.1 ≠ ".version") →
      updateVersionFiles st cfg v = (st, .ok ())) ∧
    (∀ (st : RepoState) (cfg : config) (v : String), cfg.dryRun = false →
      st.staged = [] →
      (updateVersionFiles st cfg v).1.commits ≠ st.commits →
      ∃ e ∈ st.files, baseName e.1 = ".version") := by
  constructor
  · intro st cfg v _ hstaged hfiles
    exact updateVersionFiles_no_files hstaged hfiles
  · intro st cfg v _ hstaged hchange
    exact updateVersionFiles_commit_needs_file hstaged hchange

/-- Witness for `updateVersionFiles_no_files_no_commit` on a one-file tree
holding no `.version` file. -/
theorem updateVersionFiles_no_files_no_commit_witness :
    patchCfg.dryRun = false ∧
    (⟨[("README.md", "hi")], [], ["c0"], [], "h0"⟩ : RepoState).staged = [] ∧
    (∀ e ∈ (⟨[("README.md", "hi")], [], ["c0"], [], "h0"⟩ : RepoState).files,
      baseName e.1 ≠ ".version") ∧
    updateVersionFiles ⟨[("README.md", "hi")], [], ["c0"], [], "h0"⟩ patchCfg "v1.0.1"
      = (⟨[("README.md", "hi")], [], ["c0"], [], "h0"⟩, .ok ()) :=
  ⟨rfl, rfl, by decide,
   updateVersionFiles_no_files_no_commit.1 ⟨[("README.md", "hi")], [], ["c0"], [], "h0"⟩
     patchCfg "v1.0.1" rfl rfl (by decide)⟩

/-- C4 counterexample: in normal (non-dry-run) mode over a working tree with
zero `.version` files but with a pre-staged change in the index (a state
reachable with `-force`, which bypasses the cleanliness check), the
unconditional `commit` call at the end of `updateVersionFiles` does create a
commit: the operation succeeds and the commit count grows from 1 to 2. -/
theorem updateVersionFiles_no_files_commits_prestaged :
    patchCfg.dryRun = false ∧
    (∀ e ∈ ([("a.txt", "new")] : List (String × String)), baseName e.1 ≠ ".version") ∧
    (updateVersionFiles ⟨[("a.txt", "new")], [("a.txt", "new")], ["c0"], [], "h0"⟩
        patchCfg "v1.0.1").2 = .ok () ∧
    (updateVersionFiles ⟨[("a.txt", "new")], [("a.txt", "new")], ["c0"], [], "h0"⟩
        patchCfg "v1.0.1").1.commits.length
      = (⟨[("a.txt", "new")], [("a.txt", "new")], ["c0"], [], "h0"⟩ :
          RepoState).commits.length + 1 :=
  ⟨rfl, by decide, by decide, by decide⟩

/-- C5: whenever some tag is a syntactically valid semantic version,
`lastTag` returns a member of the valid set that no valid tag exceeds under
semantic-version precedence; concretely it picks `v1.0.2` out of
`{v1.0.2, v1.0.0, v1.0.1}`, ignores invalid tags, and ranks a prerelease
below its release. -/
theorem lastTag_returns_maximum :
    (∀ names : List String, names.filter (fun t => semverIsValid t) ≠ [] →
      ∃ m, lastTag names = .ok m ∧ m ∈ names.filter (fun t => semverIsValid t) ∧
        ∀ t ∈ names.filter (fun t => semverIsValid t), semverCompare t m ≠ .gt) ∧
    lastTag ["v1.0.2", "v1.0.0", "v1.0.1"] = .ok "v1.0.2" ∧
    lastTag ["v1.0.0", "not-a-version", "v1.0.1", "v2.0.0"] = .ok "v2.0.0" ∧
    lastTag ["v1.0.0", "v1.0.1-alpha", "v1.0.1"] = .ok "v1.0.1" :=
  ⟨fun _ h => lastTag_ok_max h, by decide, by decide, by decide⟩

/-- Witness for `lastTag_returns_maximum` at the tag set
`{v1.0.2, v1.0.0, v1.0.1}`. -/
theorem lastTag_returns_maximum_witness :
    (["v1.0.2", "v1.0.0", "v1.0.1"].filter (fun t => semverIsValid t) ≠ []) ∧
    (∃ m, lastTag ["v1.0.2", "v1.0.0", "v1.0.1"] = .ok m ∧
      m ∈ ["v1.0.2", "v1.0.0", "v1.0.1"].filter (fun t => semverIsValid t) ∧
      ∀ t ∈ ["v1.0.2", "v1.0.0", "v1.0.1"].filter (fun t => semverIsValid t),
        semverCompare t m ≠ .gt) :=
  ⟨by decide, lastTag_returns_maximum.1 ["v1.0.2", "v1.0.0", "v1.0.1"] (by decide)⟩

/-- C6 (amended): `incrementVersion` fails with exactly the format error when
the string does not split into three dot-separated parts, and fails when the
scanned prefix `v%d.%d.%d` does not match (for instance a non-numeric
component); but input remaining after the third integer is accepted and
discarded, not rejected. -/
theorem incrementVersion_format_checks :
    (∀ (s : String) (cfg : config), (splitOnChar '.' s.data).length ≠ 3 →
      incrementVersion s cfg = .error ("invalid version format: " ++ s)) ∧
    incrementVersion "va.2.3" patchCfg
      = .error "failed to parse current version('va.2.3')" ∧
    incrementVersion "v1.2.3x" patchCfg = .ok "v1.2.4" := by
  refine ⟨?_, by decide, by decide⟩
  intro s cfg h
  unfold incrementVersion
  rw [if_pos h]

/-- Witness for `incrementVersion_format_checks` at the tests' invalid
inputs `v100` (no dots) and `v1.0.0.0` (too many dots). -/
theorem incrementVersion_format_checks_witness :
    ((splitOnChar '.' ("v100" : String).data).length ≠ 3 ∧
      incrementVersion "v100" patchCfg
        = .error ("invalid version format: " ++ "v100")) ∧
    ((splitOnChar '.' ("v1.0.0.0" : String).data).length ≠ 3 ∧
      incrementVersion "v1.0.0.0" patchCfg
        = .error ("invalid version format: " ++ "v1.0.0.0")) :=
  ⟨⟨by decide, incrementVersion_format_checks.1 "v100" patchCfg (by decide)⟩,
   ⟨by decide, incrementVersion_format_checks.1 "v1.0.0.0" patchCfg (by decide)⟩⟩

/-- C6 counterexample: `v1.2.3x` — three dot-separated parts with trailing
non-numeric characters — is not rejected: the bump succeeds. -/
theorem incrementVersion_accepts_trailing :
    incrementVersion "v1.2.3x" patchCfg = .ok "v1.2.4" := by decide

/-- C7 (spec-modelled): a path is ignored iff some rule matches it; with the
rules `/vendor` (anchored) and `testdata` (unanchored), the path `vendor` is
ignored, `foo/vendor` is not, and `foo/bar/testdata` is. -/
theorem shouldIgnore_spec :
    (∀ (rules : List ignoreRule) (path : String),
      shouldIgnore path rules = true ↔ ∃ r ∈ rules, ruleMatches path r = true) ∧
    shouldIgnore "vendor" [⟨"vendor", true⟩, ⟨"testdata", false⟩] = true ∧
    shouldIgnore "foo/vendor" [⟨"vendor", true⟩, ⟨"testdata", false⟩] = false ∧
    shouldIgnore "foo/bar/testdata" [⟨"vendor", true⟩, ⟨"testdata", false⟩] = true := by
  refine ⟨?_, by decide, by decide, by decide⟩
  intro rules path
  simp [shouldIgnore, List.any_eq_true]

/-- C8 (amended): provided `-help` is absent, a non-empty `-version` value
together with any increment flag is an error, more than one increment flag is
an error, and with no leftover arguments, no version and no increment flags
the returned action defaults to a patch bump. -/
theorem getConfig_mutual_exclusion (f : parsedFlags) (hhelp : f.help = false) :
    (f.version ≠ "" → (f.patch || f.minor || f.major) = true →
      ∃ e, getConfig f = .error e) ∧
    (((f.patch && f.minor) || (f.patch && f.major) || (f.minor && f.major)) = true →
      ∃ e, getConfig f = .error e) ∧
    (f.extraArgs = [] → f.version = "" → f.patch = false → f.minor = false →
      f.major = false →
      getConfig f = .ok (⟨"", .incrementPatch, f.dryRun, f.force⟩, false)) := by
  refine ⟨?_, ?_, ?_⟩
  · intro hv hflags
    by_cases hargs : f.extraArgs.length > 0
    · exact ⟨"unexpected arguments", by unfold getConfig; rw [hhelp]; simp [hargs]⟩
    · refine ⟨"cannot set version and increment flags at the same time", ?_⟩
      unfold getConfig
      rw [hhelp]
      have hcond : (f.version != "" && (f.patch || f.minor || f.major)) = true := by
        simp only [Bool.and_eq_true, bne_iff_ne, ne_eq]
        exact ⟨hv, hflags⟩
      simp [hargs, hcond]
  · intro hflags
    by_cases hargs : f.extraArgs.length > 0
    · exact ⟨"unexpected arguments", by unfold getConfig; rw [hhelp]; simp [hargs]⟩
    · by_cases hver : (f.version != "" && (f.patch || f.minor || f.major)) = true
      · exact ⟨"cannot set version and increment flags at the same time",
          by unfold getConfig; rw [hhelp]; simp [hargs, hver]⟩
      · exact ⟨"cannot set more than one increment flag at the same time",
          by unfold getConfig; rw [hhelp]; simp [hargs, hver, hflags]⟩
  · intro hargs hv hp hm hM2
    unfold getConfig
    rw [hhelp, hargs, hv, hp, hm, hM2]
    rfl

/-- Witness for `getConfig_mutual_exclusion` at the empty flag set: the
action defaults to a patch bump. -/
theorem getConfig_mutual_exclusion_witness :
    getConfig ⟨"", false, false, false, false, false, false, []⟩
      = .ok (⟨"", .incrementPatch, false, false⟩, false) :=
  (getConfig_mutual_exclusion ⟨"", false, false, false, false, false, false, []⟩ rfl).2.2
    rfl rfl rfl rfl rfl

/-- C8 counterexample: with `-help` set alongside `-version v1.0.0 -patch`,
`getConfig` returns the help result, not an error, although an explicit
version is combined with an increment flag. -/
theorem getConfig_help_bypasses_checks :
    getConfig ⟨"v1.0.0", true, false, false, false, false, true, []⟩
      = .ok (⟨"", .noAction, false, false⟩, true) := by decide

/-- C9 (amended): within the 64-bit range, the bump result is again a
canonical `vMAJOR.MINOR.PATCH` string, is a valid semantic version, and is
strictly greater than the input under semantic-version precedence. -/
theorem incrementVersion_strictly_increases (ma mi pa : Nat) (hM : ma ≤ int64MaxN)
    (hm : mi ≤ int64MaxN) (hp : pa ≤ int64MaxN) :
    (pa + 1 ≤ int64MaxN →
      incrementVersion (canonV ma mi pa) patchCfg = .ok (canonV ma mi (pa + 1)) ∧
      semverIsValid (canonV ma mi (pa + 1)) = true ∧
      semverCompare (canonV ma mi pa) (canonV ma mi (pa + 1)) = .lt) ∧
    (mi + 1 ≤ int64MaxN →
      incrementVersion (canonV ma mi pa) minorCfg = .ok (canonV ma (mi + 1) 0) ∧
      semverIsValid (canonV ma (mi + 1) 0) = true ∧
      semverCompare (canonV ma mi pa) (canonV ma (mi + 1) 0) = .lt) ∧
    (ma + 1 ≤ int64MaxN →
      incrementVersion (canonV ma mi pa) majorCfg = .ok (canonV (ma + 1) 0 0) ∧
      semverIsValid (canonV (ma + 1) 0 0) = true ∧
      semverCompare (canonV ma mi pa) (canonV (ma + 1) 0 0) = .lt) :=
  ⟨fun hb => ⟨incrementVersion_canonV_patch hM hm hp hb, semverIsValid_canonical _ _ _,
      canonV_cmp_patch (by omega)⟩,
   fun hb => ⟨incrementVersion_canonV_minor hM hm hp hb, semverIsValid_canonical _ _ _,
      canonV_cmp_minor (by omega)⟩,
   fun hb => ⟨incrementVersion_canonV_major hM hm hp hb, semverIsValid_canonical _ _ _,
      canonV_cmp_major (by omega)⟩⟩

/-- Witness for `incrementVersion_strictly_increases` at `v1.2.3` with a
patch bump. -/
theorem incrementVersion_strictly_increases_witness :
    (3 + 1 ≤ int64MaxN) ∧
    (incrementVersion (canonV 1 2 3) patchCfg = .ok (canonV 1 2 (3 + 1)) ∧
      semverIsValid (canonV 1 2 (3 + 1)) = true ∧
      semverCompare (canonV 1 2 3) (canonV 1 2 (3 + 1)) = .lt) :=
  ⟨by decide,
   (incrementVersion_strictly_increases 1 2 3 (by decide) (by decide)
     (by decide)).1 (by decide)⟩

/-- C9 counterexample: at the `int` maximum, the patch bump produces
`v0.0.-9223372036854775808`, which is not of the `vMAJOR.MINOR.PATCH` form
(it is not even a valid semantic version) and is strictly smaller than the
input under semantic-version precedence. -/
theorem incrementVersion_not_increasing_at_int64_max :
    incrementVersion "v0.0.9223372036854775807" patchCfg
      = .ok "v0.0.-9223372036854775808" ∧
    semverIsValid "v0.0.-9223372036854775808" = false ∧
    semverCompare "v0.0.9223372036854775807" "v0.0.-9223372036854775808" = .gt :=
  ⟨by decide, by decide, by decide⟩

/-- C10: `updateVersionFiles` never writes to a file whose base name is not
exactly `.version` — in every mode, and also when the walk aborts on an
error, such a file's content afterwards equals its content before — and every
entry it stages is a `.version` file. -/
theorem updateVersionFiles_frame (st : RepoState) (cfg : config) (v : String) :
    (∀ p, baseName p ≠ ".version" →
      fileContent (updateVersionFiles st cfg v).1.files p = fileContent st.files p) ∧
    (∀ e ∈ (updateVersionFiles st cfg v).1.staged,
      e ∈ st.staged ∨ baseName e.1 = ".version") :=
  updateVersionFiles_frame_parts st cfg v

/-- Witness for `updateVersionFiles_frame`: on a tree holding `a.txt` and a
`.version` file, the content of `a.txt` is untouched by the update. -/
theorem updateVersionFiles_frame_witness :
    baseName "a.txt" ≠ ".version" ∧
    fileContent (updateVersionFiles
        ⟨[("a.txt", "x"), (".version", "v1.0.0")], [], ["c0"], [], "h0"⟩
        patchCfg "v1.0.1").1.files "a.txt"
      = fileContent ((⟨[("a.txt", "x"), (".version", "v1.0.0")], [], ["c0"], [], "h0"⟩ :
          RepoState).files) "a.txt" :=
  ⟨by decide,
   (updateVersionFiles_frame
     ⟨[("a.txt", "x"), (".version", "v1.0.0")], [], ["c0"], [], "h0"⟩
     patchCfg "v1.0.1").1 "a.txt" (by decide)⟩

end Bump
